import Mathlib

/-!
# Verification of the reviewmate LLM response contract

Shallow embedding of `src/reviewmate/src/taskpane/openai.ts`: settings
storage, prompt construction, tolerant JSON extraction (`extractJson`),
response normalization (`generateReviewComments`), the completion client
flows, and the paraphrase variant splitter.

Modelling conventions:
* JS strings are modelled as `List Char` (or Lean `String` at the API
  surface); `indexOf`, `lastIndexOf`, `slice`, `trim`, `split` and the
  regexes used by the source are embedded as explicit functions.
* `JSON.parse` / `JSON.stringify` are embedded by `parseJson` / `strJson`
  over the `Json` value type.  Numbers are modelled as integers
  (IEEE-754 doubles are outside the model); `JSON.parse`'s whitespace,
  literals, strings with escape sequences, arrays and objects follow the
  JSON grammar.
* Fallible operations return `Option` / `Except`.
-/

namespace RM

/-- JSON whitespace accepted by `JSON.parse`: space, tab, LF, CR. -/
def isJsonWs (c : Char) : Bool := c = ' ' || c = '\t' || c = '\n' || c = '\r'

/-- Skip leading JSON whitespace. -/
def skipWs (cs : List Char) : List Char := cs.dropWhile isJsonWs

/-- JSON values as produced by `JSON.parse`.  Object member lists keep
source order; numbers are modelled as integers. -/
inductive Json where
  | null : Json
  | bool (b : Bool) : Json
  | num (n : Int) : Json
  | str (s : List Char) : Json
  | arr (elems : List Json) : Json
  | obj (members : List (List Char × Json)) : Json

/-- Consume an expected literal tail (for `null` / `true` / `false`). -/
def dropLit : List Char → List Char → Option (List Char)
  | [], cs => some cs
  | _ :: _, [] => none
  | l :: ls, c :: cs => if c = l then dropLit ls cs else none

/-- Numeric value of a decimal digit character. -/
def digitVal (c : Char) : Nat := c.toNat - 48

/-- Decimal value of a digit list (most significant first). -/
def digitsToNat (ds : List Char) : Nat := ds.foldl (fun a c => a * 10 + digitVal c) 0

/-- Parse a JSON unsigned integer literal: digits, no leading zero
(except "0" itself). -/
def parseNat (cs : List Char) : Option (Nat × List Char) :=
  let ds := cs.takeWhile Char.isDigit
  if ds = [] then none
  else if ds.head? = some '0' && ds.length != 1 then none
  else some (digitsToNat ds, cs.dropWhile Char.isDigit)

/-- Parse a JSON number (integer grammar: optional minus then digits). -/
def parseNum (cs : List Char) : Option (Json × List Char) :=
  match cs with
  | [] => none
  | c :: cs2 =>
    if c = '-' then (parseNat cs2).map fun p => (Json.num (-(p.1 : Int)), p.2)
    else (parseNat cs).map fun p => (Json.num (p.1 : Int), p.2)

/-- Value of a hexadecimal digit character, if any. -/
def hexVal (c : Char) : Option Nat :=
  if '0' ≤ c ∧ c ≤ '9' then some (c.toNat - 48)
  else if 'a' ≤ c ∧ c ≤ 'f' then some (c.toNat - 87)
  else if 'A' ≤ c ∧ c ≤ 'F' then some (c.toNat - 55)
  else none

/-- Single-character JSON string escapes. -/
def escChar (e : Char) : Option Char :=
  if e = '"' then some '"'
  else if e = '\\' then some '\\'
  else if e = '/' then some '/'
  else if e = 'b' then some (Char.ofNat 8)
  else if e = 'f' then some (Char.ofNat 12)
  else if e = 'n' then some '\n'
  else if e = 'r' then some '\r'
  else if e = 't' then some '\t'
  else none

/-- Parse the body of a JSON string after the opening quote, returning
the decoded characters and the input after the closing quote.  Raw
control characters are rejected, escape sequences are decoded. -/
def parseStr : List Char → Option (List Char × List Char)
  | [] => none
  | c :: cs =>
    if c = '"' then some ([], cs)
    else if c = '\\' then
      match cs with
      | [] => none
      | e :: cs2 =>
        if e = 'u' then
          match cs2 with
          | u1 :: u2 :: u3 :: u4 :: cs3 =>
            match hexVal u1, hexVal u2, hexVal u3, hexVal u4 with
            | some a, some b, some x, some y =>
              (parseStr cs3).map fun p => (Char.ofNat (((a * 16 + b) * 16 + x) * 16 + y) :: p.1, p.2)
            | _, _, _, _ => none
          | _ => none
        else (escChar e).bind fun ec => (parseStr cs2).map fun p => (ec :: p.1, p.2)
    else if c.toNat < 32 then none
    else (parseStr cs).map fun p => (c :: p.1, p.2)

mutual

/-- Parse one JSON value (fuel-indexed; `parseJson` supplies ample fuel). -/
def parseValue : Nat → List Char → Option (Json × List Char)
  | 0, _ => none
  | fuel + 1, cs =>
    match skipWs cs with
    | [] => none
    | c :: rest =>
      if c = 'n' then (dropLit ['u', 'l', 'l'] rest).map fun r => (Json.null, r)
      else if c = 't' then (dropLit ['r', 'u', 'e'] rest).map fun r => (Json.bool true, r)
      else if c = 'f' then (dropLit ['a', 'l', 's', 'e'] rest).map fun r => (Json.bool false, r)
      else if c = '"' then (parseStr rest).map fun p => (Json.str p.1, p.2)
      else if c = '-' || c.isDigit then parseNum (c :: rest)
      else if c = '[' then
        match skipWs rest with
        | ']' :: rest2 => some (Json.arr [], rest2)
        | cs2 => (parseElems fuel cs2).map fun p => (Json.arr p.1, p.2)
      else if c = '{' then
        match skipWs rest with
        | '}' :: rest2 => some (Json.obj [], rest2)
        | cs2 => (parseMembers fuel cs2).map fun p => (Json.obj p.1, p.2)
      else none

/-- Parse the elements of a non-empty JSON array body up to and
including the closing bracket. -/
def parseElems : Nat → List Char → Option (List Json × List Char)
  | 0, _ => none
  | fuel + 1, cs => do
    let (v, rest) ← parseValue fuel cs
    match skipWs rest with
    | ',' :: rest2 => (parseElems fuel rest2).map fun p => (v :: p.1, p.2)
    | ']' :: rest2 => some ([v], rest2)
    | _ => none

/-- Parse the members of a non-empty JSON object body up to and
including the closing brace. -/
def parseMembers : Nat → List Char → Option (List (List Char × Json) × List Char)
  | 0, _ => none
  | fuel + 1, cs =>
    match skipWs cs with
    | '"' :: rest => do
      let (k, rest1) ← parseStr rest
      match skipWs rest1 with
      | ':' :: rest2 => do
        let (v, rest3) ← parseValue fuel rest2
        match skipWs rest3 with
        | ',' :: rest4 => (parseMembers fuel rest4).map fun p => ((k, v) :: p.1, p.2)
        | '}' :: rest4 => some ([(k, v)], rest4)
        | _ => none
      | _ => none
    | _ => none

end

/-- Embedding of `JSON.parse`: parse one value, then only whitespace may
remain.  The fuel `2 * length + 2` is ample (proved sufficient for
serialized values below). -/
def parseJson (cs : List Char) : Option Json :=
  match parseValue (2 * cs.length + 2) cs with
  | some (v, rest) => if skipWs rest = [] then some v else none
  | none => none

/-- Decimal digit character for `n < 10`. -/
def digitChar (n : Nat) : Char := Char.ofNat (48 + n)

/-- Lower-case hexadecimal digit character for `n < 16`. -/
def hexDigitChar (n : Nat) : Char := if n < 10 then Char.ofNat (48 + n) else Char.ofNat (87 + n)

/-- Decimal digits of `n`, accumulator form; `fuel ≥ n + 1` is enough
(structural fuel keeps the definition kernel-reducible). -/
def natCharsAux : Nat → Nat → List Char → List Char
  | 0, _, acc => acc
  | fuel + 1, n, acc =>
    if n < 10 then digitChar n :: acc
    else natCharsAux fuel (n / 10) (digitChar (n % 10) :: acc)

/-- Decimal digits of `n`, most significant first, no leading zeros. -/
def natChars (n : Nat) : List Char := natCharsAux (n + 1) n []

/-- `JSON.stringify` of an integer number. -/
def intChars : Int → List Char
  | Int.ofNat n => natChars n
  | Int.negSucc m => '-' :: natChars (m + 1)

/-- `JSON.stringify`'s escaping of one string character. -/
def escCharOut (c : Char) : List Char :=
  if c = '"' then ['\\', '"']
  else if c = '\\' then ['\\', '\\']
  else if c = '\n' then ['\\', 'n']
  else if c = '\r' then ['\\', 'r']
  else if c = '\t' then ['\\', 't']
  else if c.toNat = 8 then ['\\', 'b']
  else if c.toNat = 12 then ['\\', 'f']
  else if c.toNat < 32 then ['\\', 'u', '0', '0', hexDigitChar (c.toNat / 16), hexDigitChar (c.toNat % 16)]
  else [c]

/-- `JSON.stringify`'s escaping of a string body. -/
def escString (s : List Char) : List Char := s.flatMap escCharOut

mutual

/-- Embedding of `JSON.stringify` (no spacing argument, as in the source). -/
def strJson : Json → List Char
  | Json.null => ['n', 'u', 'l', 'l']
  | Json.bool true => ['t', 'r', 'u', 'e']
  | Json.bool false => ['f', 'a', 'l', 's', 'e']
  | Json.num n => intChars n
  | Json.str s => '"' :: escString s ++ ['"']
  | Json.arr xs => '[' :: strElems xs ++ [']']
  | Json.obj kvs => '{' :: strMembers kvs ++ ['}']

/-- Serialized array elements, comma separated. -/
def strElems : List Json → List Char
  | [] => []
  | [x] => strJson x
  | x :: xs => strJson x ++ ',' :: strElems xs

/-- Serialized object members, comma separated. -/
def strMembers : List (List Char × Json) → List Char
  | [] => []
  | [(k, v)] => ('"' :: escString k ++ ['"']) ++ ':' :: strJson v
  | (k, v) :: kvs => (('"' :: escString k ++ ['"']) ++ ':' :: strJson v) ++ ',' :: strMembers kvs

end

/-- `String.prototype.indexOf` for a single character. -/
def firstIdx (c : Char) : List Char → Option Nat
  | [] => none
  | x :: xs => if x = c then some 0 else (firstIdx c xs).map (· + 1)

/-- `String.prototype.lastIndexOf` for a single character. -/
def lastIdx (c : Char) (cs : List Char) : Option Nat :=
  (firstIdx c cs.reverse).map fun i => cs.length - 1 - i

/-- The two ways `extractJson` can throw: the explicit
`MalformedResponse` error ("LLM did not return JSON."), or the
`SyntaxError` of the final, uncaught `JSON.parse` call. -/
inductive ExtractErr where
  | malformedResponse : ExtractErr
  | parseError : ExtractErr
deriving DecidableEq

/-- Embedding of `candidate.replace(/```json|```/g, "")`: global
replacement, "```json" preferred over "```" at the same position. -/
def removeFences : List Char → List Char
  | '`' :: '`' :: '`' :: 'j' :: 's' :: 'o' :: 'n' :: rest => removeFences rest
  | '`' :: '`' :: '`' :: rest => removeFences rest
  | c :: rest => c :: removeFences rest
  | [] => []

/-- Embedding of `extractJson` (openai.ts lines 111-128): whole-text
parse, then first-`\x7b`-to-last-`\x7d` slice parse, then fence-stripped
slice parse; `MalformedResponse` only when no valid brace span exists. -/
def extractJson (text : List Char) : Except ExtractErr Json :=
  match parseJson text with
  | some v => Except.ok v
  | none =>
    match firstIdx '{' text, lastIdx '}' text with
    | some first, some last =>
      if first < last then
        let candidate := (text.drop first).take (last + 1 - first)
        match parseJson candidate with
        | some v => Except.ok v
        | none =>
          match parseJson (removeFences candidate) with
          | some v => Except.ok v
          | none => Except.error ExtractErr.parseError
      else Except.error ExtractErr.malformedResponse
    | _, _ => Except.error ExtractErr.malformedResponse

/-- The slice guard of openai.ts line 117: a first `\x7b` strictly
before a last `\x7d`. -/
def braceSpan (text : List Char) : Bool :=
  match firstIdx '{' text, lastIdx '}' text with
  | some f, some l => decide (f < l)
  | _, _ => false

mutual

/-- Fuel sufficient for `parseValue` on the serialization of a value. -/
def jfuel : Json → Nat
  | Json.null => 1
  | Json.bool _ => 1
  | Json.num _ => 1
  | Json.str _ => 1
  | Json.arr xs => 1 + efuel xs
  | Json.obj kvs => 1 + mfuel kvs

/-- Fuel sufficient for `parseElems` on serialized elements. -/
def efuel : List Json → Nat
  | [] => 0
  | x :: xs => 1 + jfuel x + efuel xs

/-- Fuel sufficient for `parseMembers` on serialized members. -/
def mfuel : List (List Char × Json) → Nat
  | [] => 0
  | (_, v) :: kvs => 1 + jfuel v + mfuel kvs

end

/-! ## Settings store (openai.ts lines 20-86) -/

/-- The persisted settings triple. -/
structure ApiSettings where
  apiKey : String
  baseUrl : String
  model : String
deriving DecidableEq

/-- `DEFAULT_SETTINGS` (openai.ts lines 26-30). -/
def DEFAULT_SETTINGS : ApiSettings :=
  { apiKey := "", baseUrl := "https://api.openai.com/v1", model := "gpt-4o-mini" }

/-- `Partial<ApiSettings>`: a settings object in which any field may be
absent. -/
structure PartialSettings where
  apiKey : Option String := none
  baseUrl : Option String := none
  model : Option String := none
deriving DecidableEq

/-- The JS object spread `\x7b ...base, ...p \x7d`: a field present in `p`
(even as the empty string) overrides `base`. -/
def mergeSettings (base : ApiSettings) (p : PartialSettings) : ApiSettings :=
  { apiKey := p.apiKey.getD base.apiKey
    baseUrl := p.baseUrl.getD base.baseUrl
    model := p.model.getD base.model }

/-- `STORAGE_KEYS` (openai.ts lines 20-24). -/
def STORAGE_KEYS_apiKey : String := "RM_OPENAI_API_KEY"

def STORAGE_KEYS_baseUrl : String := "RM_OPENAI_BASE_URL"

def STORAGE_KEYS_model : String := "RM_OPENAI_MODEL"

/-- The key-value storage backend.  `OfficeRuntime.storage` and the
`sessionStorage` fallback write and read identical triples, so both are
collapsed to one abstract store; `getItem` of an absent key is `none`
(JS `null`). -/
def Store : Type := String → Option String

/-- `storage.setItem k v`. -/
def setItem (st : Store) (k v : String) : Store := fun q => if q = k then some v else st q

/-- JS `x || d` where `x : string | null` (absent and empty both fall
back to `d`). -/
def jsOrOpt (x : Option String) (d : String) : String :=
  match x with
  | none => d
  | some s => if s = "" then d else s

/-- JS `x || d` for a string `x`. -/
def jsOrStr (x d : String) : String := if x = "" then d else x

/-- `loadApiSettings` (openai.ts lines 56-86). -/
def loadApiSettings (st : Store) : ApiSettings :=
  { apiKey := jsOrOpt (st STORAGE_KEYS_apiKey) ""
    baseUrl := jsOrOpt (st STORAGE_KEYS_baseUrl) DEFAULT_SETTINGS.baseUrl
    model := jsOrOpt (st STORAGE_KEYS_model) DEFAULT_SETTINGS.model }

/-- `saveApiSettings` (openai.ts lines 32-54): merge the partial update
over the loaded settings, then write all three keys. -/
def saveApiSettings (st : Store) (settings : PartialSettings) : Store :=
  let merged := mergeSettings (loadApiSettings st) settings
  setItem
    (setItem
      (setItem st STORAGE_KEYS_apiKey (jsOrStr merged.apiKey ""))
      STORAGE_KEYS_baseUrl (jsOrStr merged.baseUrl DEFAULT_SETTINGS.baseUrl))
    STORAGE_KEYS_model (jsOrStr merged.model DEFAULT_SETTINGS.model)

/-! ## Prompt builder (openai.ts lines 88-109) -/

/-- `Array.prototype.join(sep)`. -/
def jsJoin (sep : String) : List String → String
  | [] => ""
  | [a] => a
  | a :: rest => a ++ sep ++ jsJoin sep rest

/-- The fixed JSON-shape block of the review prompt (openai.ts 95-100). -/
def promptShape : String :=
  "\x7b\n  \"comments\": [\n    \x7b \"quote\": \"<optional short quote>\", \"comment\": \"<actionable feedback>\", \"severity\": \"info|suggestion|warning\" \x7d\n  ],\n  \"summary\": \"<optional concise overall review summary>\"\n\x7d"

/-- `focuses.length ? focuses.join(", ") : "general academic quality"`
(openai.ts line 89). -/
def focusTextOf (focuses : List String) : String :=
  if focuses.length ≠ 0 then jsJoin ", " focuses else "general academic quality"

/-- The line list `buildPrompt` joins with newlines. -/
def promptLines (input : String) (focuses : List String) (custom : String) : List String :=
  [ "You are an expert academic peer reviewer. Provide high-quality, constructive, concise feedback.",
    "Focus areas: " ++ focusTextOf focuses ++ ".",
    if custom ≠ "" then "Additional reviewer instructions: " ++ custom else "",
    "Return your output as strict JSON only with the following structure:",
    promptShape,
    "Constraints:",
    "- No Markdown code fences.",
    "- No extra commentary outside the JSON.",
    "- Keep each comment short and actionable.",
    "- Use at most 10 comments.",
    "Text to review:",
    input ]

/-- `buildPrompt` (openai.ts lines 88-109). -/
def buildPrompt (input : String) (focuses : List String) (custom : String) : String :=
  jsJoin "\n" (promptLines input focuses custom)

/-- The prompt text before the focus areas (pieces kept as the join
produces them). -/
def promptHead : String :=
  "You are an expert academic peer reviewer. Provide high-quality, constructive, concise feedback." ++
    "\n" ++ "Focus areas: "

/-- The prompt text between the focus areas and the input when the
custom instructions are empty. -/
def promptMidEmptyCustom : String :=
  "." ++ "\n" ++ "" ++ "\n" ++
    "Return your output as strict JSON only with the following structure:" ++ "\n" ++
    promptShape ++ "\n" ++ "Constraints:" ++ "\n" ++ "- No Markdown code fences." ++ "\n" ++
    "- No extra commentary outside the JSON." ++ "\n" ++
    "- Keep each comment short and actionable." ++ "\n" ++ "- Use at most 10 comments." ++ "\n" ++
    "Text to review:" ++ "\n"

/-- The instruction-continuation line's fixed prefix. -/
def instrPhrase : String := "Additional reviewer instructions:"

/-! ## Response normalization (openai.ts lines 166-181) -/

/-- JS property access `o[k]` on a parsed JSON value: the last binding
of `k` in an object (`JSON.parse` keeps the last duplicate key); absent
on every non-object value. -/
def jsGet (j : Json) (k : List Char) : Option Json :=
  match j with
  | Json.obj kvs => (kvs.reverse.find? fun kv => kv.1 == k).map fun kv => kv.2
  | _ => none

/-- JS truthiness of a JSON value. -/
def jsTruthy (j : Json) : Bool :=
  match j with
  | Json.null => false
  | Json.bool b => b
  | Json.num n => n != 0
  | Json.str s => !s.isEmpty
  | Json.arr _ => true
  | Json.obj _ => true

/-- Normalized severity values. -/
inductive Severity where
  | info : Severity
  | suggestion : Severity
  | warning : Severity
deriving DecidableEq

/-- A normalized `ReviewComment` (after lines 169-179 every entry has a
definite severity). -/
structure ReviewComment where
  quote : Option (List Char) := none
  comment : List Char
  severity : Severity
deriving DecidableEq

/-- A normalized `ReviewResult`. -/
structure ReviewResult where
  comments : List ReviewComment
  summary : Option (List Char) := none
deriving DecidableEq

/-- The per-entry filter and mapper of openai.ts lines 169-179: the
`filter(c && typeof c.comment === "string")` and the subsequent `map`,
fused entrywise. -/
def normEntry (c : Json) : Option ReviewComment :=
  if jsTruthy c then
    match jsGet c "comment".data with
    | some (Json.str m) =>
      some
        { quote :=
            match jsGet c "quote".data with
            | some (Json.str q) => some q
            | _ => none
          comment := m
          severity :=
            match jsGet c "severity".data with
            | some (Json.str s) =>
              if s = "warning".data then Severity.warning
              else if s = "suggestion".data then Severity.suggestion
              else Severity.info
            | _ => Severity.info }
    | _ => none
  else none

/-- The normalization of a parsed response inside `generateReviewComments`
(openai.ts lines 166-181). -/
def normalizeReview (parsed : Json) : ReviewResult :=
  let comments :=
    match jsGet parsed "comments".data with
    | some (Json.arr xs) => xs
    | _ => []
  let summary :=
    match jsGet parsed "summary".data with
    | some (Json.str s) => some s
    | _ => none
  { comments := (comments.filterMap normEntry).take 10, summary := summary }

/-- Spec-side normalization, written from the spec's words (section 4.3):
take `parsed.comments` only if it is an array, otherwise treat as empty;
filter out entries whose `comment` field is not a string; map `severity`
to one of the three enumerated values substituting `info` for anything
else; pass `quote` through only if it is a string, otherwise omit;
truncate to at most 10 entries preserving order; `summary` only if it is
a string.  Compared with `normalizeReview` (the code) in C4. -/
def specNormalize (parsed : Json) : ReviewResult :=
  let xs :=
    match jsGet parsed "comments".data with
    | some (Json.arr xs) => xs
    | _ => []
  let kept := xs.filter fun c =>
    match jsGet c "comment".data with
    | some (Json.str _) => true
    | _ => false
  let entries := kept.map fun c =>
    { quote :=
        match jsGet c "quote".data with
        | some (Json.str q) => some q
        | _ => none
      comment :=
        match jsGet c "comment".data with
        | some (Json.str m) => m
        | _ => []
      severity :=
        match jsGet c "severity".data with
        | some (Json.str s) =>
          if s = "warning".data then Severity.warning
          else if s = "suggestion".data then Severity.suggestion
          else Severity.info
        | _ => Severity.info : ReviewComment }
  { comments := entries.take 10
    summary :=
      match jsGet parsed "summary".data with
      | some (Json.str s) => some s
      | _ => none }

/-! ## Completion client flows (openai.ts lines 130-231) -/

/-- One chat-completion HTTP request as the source assembles it
(temperature recorded in tenths: 2 = 0.2, 4 = 0.4). -/
structure ChatRequest where
  url : String
  apiKey : String
  model : String
  systemContent : String
  userContent : String
  temperatureTenths : Nat
deriving DecidableEq

/-- The network collaborator's answer: a non-ok HTTP response, or the
text already unwrapped from `choices[0].message.content` (the response
envelope decoding is the collaborator's side of the boundary). -/
inductive NetResult where
  | httpFail (status : Nat) (statusText : String) (body : String) : NetResult
  | httpOk (content : String) : NetResult
deriving DecidableEq

/-- The failure taxonomy of the completion flows. -/
inductive FlowErr where
  | missingCredential : FlowErr
  | upstream (status : Nat) (statusText : String) (body : String) : FlowErr
  | extract (e : ExtractErr) : FlowErr
deriving DecidableEq

/-- `cfg.baseUrl.replace(/\/+$/, "")`: strip every trailing slash. -/
def stripTrailingSlashes (s : String) : String :=
  String.mk ((s.data.reverse.dropWhile fun c => c = '/').reverse)

/-- JS whitespace (`trim`, `\s`): the ASCII whitespace characters and
NBSP. -/
def isJsWs (c : Char) : Bool :=
  c = ' ' || c = '\t' || c = '\n' || c = '\r' || c = '\x0b' || c = '\x0c' || c = '\u00a0'

/-- `String.prototype.trim`. -/
def jsTrim (cs : List Char) : List Char :=
  ((cs.dropWhile isJsWs).reverse.dropWhile isJsWs).reverse

/-- `trim` at the `String` surface. -/
def jsTrimStr (s : String) : String := String.mk (jsTrim s.data)

/-- `generateReviewComments` (openai.ts lines 130-182) as a function of
the stored settings, the partial override and the network collaborator;
the second component records every fetch issued. -/
def generateReviewComments (input : String) (focuses : List String) (custom : String)
    (stored : ApiSettings) (settings : PartialSettings) (net : ChatRequest → NetResult) :
    Except FlowErr ReviewResult × List ChatRequest :=
  let cfg := mergeSettings stored settings
  if cfg.apiKey = "" then (Except.error FlowErr.missingCredential, [])
  else
    let req : ChatRequest :=
      { url := stripTrailingSlashes cfg.baseUrl ++ "/chat/completions"
        apiKey := cfg.apiKey
        model := cfg.model
        systemContent := "You are an expert academic peer reviewer."
        userContent := buildPrompt input focuses custom
        temperatureTenths := 2 }
    match net req with
    | NetResult.httpFail s t b => (Except.error (FlowErr.upstream s t b), [req])
    | NetResult.httpOk content =>
      match extractJson content.data with
      | Except.error e => (Except.error (FlowErr.extract e), [req])
      | Except.ok parsed => (Except.ok (normalizeReview parsed), [req])

/-- `callSimpleCompletion` (openai.ts lines 184-206). -/
def callSimpleCompletion (prompt : String)
    (stored : ApiSettings) (settings : PartialSettings) (net : ChatRequest → NetResult) :
    Except FlowErr String × List ChatRequest :=
  let cfg := mergeSettings stored settings
  if cfg.apiKey = "" then (Except.error FlowErr.missingCredential, [])
  else
    let req : ChatRequest :=
      { url := stripTrailingSlashes cfg.baseUrl ++ "/chat/completions"
        apiKey := cfg.apiKey
        model := cfg.model
        systemContent := "You are a precise writing assistant."
        userContent := prompt
        temperatureTenths := 4 }
    match net req with
    | NetResult.httpFail s t b => (Except.error (FlowErr.upstream s t b), [req])
    | NetResult.httpOk content => (Except.ok (jsTrimStr content), [req])

/-- `generateTrimmedText` (openai.ts lines 208-231). -/
def generateTrimmedText (input : String) (maxChars : Nat) (style : String)
    (stored : ApiSettings) (settings : PartialSettings) (net : ChatRequest → NetResult) :
    Except FlowErr String × List ChatRequest :=
  let target :=
    if maxChars ≠ 0 ∧ 50 < maxChars then
      "Aim for about " ++ String.mk (natChars maxChars) ++ " characters (not strict)."
    else "Keep concise."
  let tone :=
    if style = "simpler" then "Use simpler vocabulary while retaining accuracy."
    else if style = "formal" then "Maintain a formal, scholarly tone."
    else if style = "concise" then "Prefer brevity and remove redundancy."
    else "Maintain clarity and neutral professional tone."
  let prompt := jsJoin "\n"
    [ "Rewrite the following text into a significantly shorter version while preserving all essential meaning and intent.",
      tone, target, "Return only the rewritten text. No preface or explanation.", input ]
  callSimpleCompletion prompt stored settings net

/-! ## Variant splitter (openai.ts lines 233-290) -/

/-- Case-insensitive literal prefix consumption (the lowercase literal
against the input folded with `toLower`). -/
def dropLitCI : List Char → List Char → Option (List Char)
  | [], cs => some cs
  | _ :: _, [] => none
  | l :: ls, c :: cs => if c.toLower = l then dropLitCI ls cs else none

/-- The header regex `^Variant\s+(\d+)\s*:?\s*(.*)$` with the `i` flag
(openai.ts line 270): returns the parsed variant number and the captured
rest of the line. -/
def matchHeader (cs : List Char) : Option (Nat × List Char) :=
  match dropLitCI "variant".data cs with
  | none => none
  | some r1 =>
    let r2 := r1.dropWhile isJsWs
    if r1.length = r2.length then none
    else
      let ds := r2.takeWhile Char.isDigit
      if ds = [] then none
      else
        let r3 := (r2.dropWhile Char.isDigit).dropWhile isJsWs
        let r4 :=
          match r3 with
          | ':' :: t => t
          | _ => r3
        some (digitsToNat ds, r4.dropWhile isJsWs)

/-- `text.split(/\r?\n/)` (accumulator in reverse). -/
def splitLinesAux : List Char → List Char → List (List Char)
  | acc, [] => [acc.reverse]
  | acc, '\r' :: '\n' :: rest => acc.reverse :: splitLinesAux [] rest
  | acc, '\n' :: rest => acc.reverse :: splitLinesAux [] rest
  | acc, c :: rest => splitLinesAux (c :: acc) rest

/-- `text.split(/\r?\n/)`. -/
def splitLines (cs : List Char) : List (List Char) := splitLinesAux [] cs

/-- The header/continuation accumulation loop (openai.ts lines 271-284):
`cur` is the open accumulator's content, `out` the flushed variants
(each trimmed when pushed). -/
def variantLoop : List (List Char) → Option (List Char) → List (List Char) → List (List Char)
  | [], none, out => out
  | [], some cur, out => out ++ [jsTrim cur]
  | ln :: rest, cur, out =>
    match matchHeader ln with
    | some h =>
      let out2 :=
        match cur with
        | some c => out ++ [jsTrim c]
        | none => out
      variantLoop rest (some h.2) out2
    | none =>
      match cur with
      | some c => variantLoop rest (some (c ++ (if c.isEmpty then [] else [' ']) ++ ln)) out
      | none => variantLoop rest none out

/-- The variant-splitting stage of `generateParaphrasedText`
(openai.ts lines 258-289), applied to the raw completion text; `n` is
the clamped requested count computed at line 239. -/
def splitVariants (raw : String) (n : Nat) : List (List Char) :=
  let text := jsTrim raw.data
  if text.isEmpty then []
  else
    let lines := ((splitLines text).map jsTrim).filter fun l => !l.isEmpty
    let variantsOut := variantLoop lines none []
    let cleaned := (variantsOut.map jsTrim).filter fun v => !v.isEmpty
    if cleaned.isEmpty then [text] else cleaned.take n

/-- `generateParaphrasedText` (openai.ts lines 233-290). -/
def generateParaphrasedText (input : String) (variants : Nat) (style : String)
    (stored : ApiSettings) (settings : PartialSettings) (net : ChatRequest → NetResult) :
    Except FlowErr (List (List Char)) × List ChatRequest :=
  let n := min (max variants 1) 3
  let prompt := jsJoin "\n"
    [ "Paraphrase the following text into " ++ String.mk (natChars n) ++ " distinct high-quality alternative version(s).",
      "Each version must retain the original meaning and vary BOTH wording and sentence structure.",
      if style = "simpler" then "Use simpler vocabulary while preserving meaning."
      else if style = "formal" then "Adopt a formal scholarly tone."
      else if style = "concise" then "Prefer concise, tight phrasing."
      else "Maintain a neutral professional tone.",
      "Output format:",
      "Variant 1: <first paraphrase on same line>",
      "Variant 2: <second paraphrase on same line> (etc)",
      "Do NOT add explanations or any other text before or after the variants.",
      "If you cannot paraphrase, repeat the original text as Variant 1.",
      input ]
  match callSimpleCompletion prompt stored settings net with
  | (Except.ok raw, reqs) => (Except.ok (splitVariants raw n), reqs)
  | (Except.error e, reqs) => (Except.error e, reqs)

/-! ## C10: `saveApiSettings` is a merge update -/

/-- C10: `saveApiSettings` performs a merge update: every field of the
partial settings object that is absent retains, after the save, the
value `loadApiSettings` returned at the time of the save — saving only
an `apiKey` leaves the loaded `baseUrl` and `model` unchanged, and vice
versa. -/
theorem saveApiSettings_merge (st : Store) (p : PartialSettings) :
    (p.apiKey = none →
      (loadApiSettings (saveApiSettings st p)).apiKey = (loadApiSettings st).apiKey) ∧
    (p.baseUrl = none →
      (loadApiSettings (saveApiSettings st p)).baseUrl = (loadApiSettings st).baseUrl) ∧
    (p.model = none →
      (loadApiSettings (saveApiSettings st p)).model = (loadApiSettings st).model) := by
  have key2 : ∀ a : String, jsOrStr a "" = a := by
    intro a; unfold jsOrStr; split <;> simp_all
  have key1 : ∀ a : String, jsOrOpt (some a) "" = a := key2
  have hne : ∀ (x : Option String) (d : String), d ≠ "" → jsOrOpt x d ≠ "" := by
    intro x d hd
    cases x with
    | none => exact hd
    | some s =>
      show (if s = "" then d else s) ≠ ""
      split <;> simp_all
  have key3 : ∀ (x : Option String) (d : String), d ≠ "" →
      jsOrOpt (some (jsOrStr (jsOrOpt x d) d)) d = jsOrOpt x d := by
    intro x d hd
    have h1 : jsOrStr (jsOrOpt x d) d = jsOrOpt x d := by
      unfold jsOrStr; rw [if_neg (hne x d hd)]
    rw [h1]
    show (if jsOrOpt x d = "" then d else jsOrOpt x d) = jsOrOpt x d
    rw [if_neg (hne x d hd)]
  refine ⟨fun h => ?_, fun h => ?_, fun h => ?_⟩ <;>
    simp only [loadApiSettings, saveApiSettings, mergeSettings, setItem, h,
      Option.getD_none, DEFAULT_SETTINGS, STORAGE_KEYS_apiKey, STORAGE_KEYS_baseUrl,
      STORAGE_KEYS_model, String.reduceEq, reduceIte]
  · rw [key2]; exact key1 _
  · exact key3 _ _ (by simp)
  · exact key3 _ _ (by simp)

/-- Witness for C10 at a concrete store and a partial holding only an
`apiKey`. -/
theorem saveApiSettings_merge_witness :
    (loadApiSettings (saveApiSettings (fun _ => none) (PartialSettings.mk (some "k") none none))).baseUrl =
      (loadApiSettings (fun _ => none)).baseUrl ∧
    (loadApiSettings (saveApiSettings (fun _ => none) (PartialSettings.mk (some "k") none none))).model =
      (loadApiSettings (fun _ => none)).model :=
  ⟨(saveApiSettings_merge (fun _ => none) (PartialSettings.mk (some "k") none none)).2.1 rfl,
   (saveApiSettings_merge (fun _ => none) (PartialSettings.mk (some "k") none none)).2.2 rfl⟩

/-! ## C6: empty API key fails before any fetch -/

/-- C6: when the resolved API key is empty, `generateReviewComments` and
`callSimpleCompletion` (hence also the trim and paraphrase flows) fail
with the missing-credential condition and issue no network request. -/
theorem missingCredential_before_fetch (input : String) (focuses : List String) (custom : String)
    (prompt : String) (maxChars : Nat) (variants : Nat) (style : String)
    (stored : ApiSettings) (p : PartialSettings) (net : ChatRequest → NetResult)
    (h : (mergeSettings stored p).apiKey = "") :
    generateReviewComments input focuses custom stored p net =
      (Except.error FlowErr.missingCredential, []) ∧
    callSimpleCompletion prompt stored p net = (Except.error FlowErr.missingCredential, []) ∧
    generateTrimmedText input maxChars style stored p net =
      (Except.error FlowErr.missingCredential, []) ∧
    generateParaphrasedText input variants style stored p net =
      (Except.error FlowErr.missingCredential, []) := by
  refine ⟨?_, ?_, ?_, ?_⟩ <;>
    simp [generateReviewComments, callSimpleCompletion, generateTrimmedText,
      generateParaphrasedText, h]

/-- Witness for C6 with an empty stored key and no override. -/
theorem missingCredential_before_fetch_witness :
    generateReviewComments "text" [] "" (ApiSettings.mk "" "https://api.openai.com/v1" "gpt-4o-mini")
      (PartialSettings.mk none none none) (fun _ => NetResult.httpOk "\x7b\x7d") =
      (Except.error FlowErr.missingCredential, []) :=
  (missingCredential_before_fetch "text" [] "" "p" 0 1 "default"
    (ApiSettings.mk "" "https://api.openai.com/v1" "gpt-4o-mini")
    (PartialSettings.mk none none none) (fun _ => NetResult.httpOk "\x7b\x7d") rfl).1

/-! ## C9: every request URL is the slash-stripped base plus the path -/

/-- C9: every completion request issued by either flow goes to exactly
the URL formed by stripping all trailing slashes from the resolved
`baseUrl` and appending "/chat/completions". -/
theorem request_url_shape (input : String) (focuses : List String) (custom : String)
    (prompt : String) (stored : ApiSettings) (p : PartialSettings) (net : ChatRequest → NetResult) :
    (∀ req ∈ (generateReviewComments input focuses custom stored p net).2,
      req.url = stripTrailingSlashes (mergeSettings stored p).baseUrl ++ "/chat/completions") ∧
    (∀ req ∈ (callSimpleCompletion prompt stored p net).2,
      req.url = stripTrailingSlashes (mergeSettings stored p).baseUrl ++ "/chat/completions") := by
  constructor
  · intro req hreq
    by_cases hk : (mergeSettings stored p).apiKey = ""
    · simp [generateReviewComments, hk] at hreq
    · simp only [generateReviewComments, hk, if_neg, reduceIte] at hreq
      revert hreq
      split <;> (try split) <;> intro hreq <;> simp_all

  · intro req hreq
    by_cases hk : (mergeSettings stored p).apiKey = ""
    · simp [callSimpleCompletion, hk] at hreq
    · simp only [callSimpleCompletion, hk, if_neg, reduceIte] at hreq
      revert hreq
      split <;> intro hreq <;> simp_all

/-! ## C4: normalization refines the spec's description -/

theorem jsGet_null (k : List Char) : jsGet Json.null k = none := rfl

theorem jsGet_bool (b : Bool) (k : List Char) : jsGet (Json.bool b) k = none := rfl

theorem jsGet_num (n : Int) (k : List Char) : jsGet (Json.num n) k = none := rfl

theorem jsGet_str (s k : List Char) : jsGet (Json.str s) k = none := rfl

theorem jsGet_arr (xs : List Json) (k : List Char) : jsGet (Json.arr xs) k = none := rfl

/-- The truthiness test in the source's `filter` is redundant: a value
with a `comment` property is an object, hence truthy. -/
theorem normEntry_eq_match (c : Json) :
    normEntry c =
      match jsGet c "comment".data with
      | some (Json.str m) =>
        some
          { quote :=
              match jsGet c "quote".data with
              | some (Json.str q) => some q
              | _ => none
            comment := m
            severity :=
              match jsGet c "severity".data with
              | some (Json.str s) =>
                if s = "warning".data then Severity.warning
                else if s = "suggestion".data then Severity.suggestion
                else Severity.info
              | _ => Severity.info }
      | _ => none := by
  cases c <;> simp [normEntry, jsTruthy, jsGet_null, jsGet_bool, jsGet_num, jsGet_str, jsGet_arr]

/-- `filterMap` over the fused entry map agrees with the spec's
filter-then-map. -/
theorem filterMap_normEntry (xs : List Json) :
    xs.filterMap normEntry =
      (xs.filter fun c =>
        match jsGet c "comment".data with
        | some (Json.str _) => true
        | _ => false).map fun c =>
        { quote :=
            match jsGet c "quote".data with
            | some (Json.str q) => some q
            | _ => none
          comment :=
            match jsGet c "comment".data with
            | some (Json.str m) => m
            | _ => []
          severity :=
            match jsGet c "severity".data with
            | some (Json.str s) =>
              if s = "warning".data then Severity.warning
              else if s = "suggestion".data then Severity.suggestion
              else Severity.info
            | _ => Severity.info } := by
  induction xs with
  | nil => rfl
  | cons c xs ih =>
    rw [List.filterMap_cons, List.filter_cons, normEntry_eq_match]
    cases hc : jsGet c "comment".data with
    | none => simpa [hc] using ih
    | some j =>
      cases j <;> simp [hc, ih]

/-- C4: for every parsed response the normalization inside
`generateReviewComments` equals the spec-side normalization: comments
are taken only from an array, entries without a string `comment` are
dropped, `severity` maps into the enumeration with `info` substituted
for anything else (e.g. "bogus"), `quote` passes through only as a
string, and `summary` appears only as a string. -/
theorem normalizeReview_spec (parsed : Json) :
    normalizeReview parsed = specNormalize parsed ∧
    normalizeReview (Json.obj [("comments".data,
        Json.arr [Json.obj [("comment".data, Json.str "x".data),
                            ("severity".data, Json.str "bogus".data)]])]) =
      { comments := [{ quote := none, comment := "x".data, severity := Severity.info }],
        summary := none } := by
  refine ⟨?_, rfl⟩
  simp only [normalizeReview, specNormalize]
  rw [filterMap_normEntry]

/-! ## C5: at most 10 comments, first 10 kept in order -/

/-- C5: every successful `generateReviewComments` result has at most 10
comments, and with 15 well-formed entries exactly the first 10 are
returned, in their original order. -/
theorem comments_at_most_ten :
    (∀ (input : String) (focuses : List String) (custom : String) (stored : ApiSettings)
      (p : PartialSettings) (net : ChatRequest → NetResult) (r : ReviewResult),
      (generateReviewComments input focuses custom stored p net).1 = Except.ok r →
      r.comments.length ≤ 10) ∧
    normalizeReview (Json.obj [("comments".data,
        Json.arr ((List.range 15).map fun i =>
          Json.obj [("comment".data, Json.str (natChars i))]))]) =
      { comments := (List.range 10).map fun i =>
          { quote := none, comment := natChars i, severity := Severity.info }
        summary := none } := by
  constructor
  · intro input focuses custom stored p net r hr
    have hnorm : ∀ parsed, (normalizeReview parsed).comments.length ≤ 10 := by
      intro parsed
      simp [normalizeReview]
    by_cases hk : (mergeSettings stored p).apiKey = ""
    · simp [generateReviewComments, hk] at hr
    · simp only [generateReviewComments, hk, reduceIte] at hr
      revert hr
      split <;> (try split) <;> intro hr <;> simp_all
      · rename_i parsed _
        cases hr
        exact hnorm parsed
  · rfl

/-- Witness for C5 at a concrete successful flow. -/
theorem comments_at_most_ten_witness :
    ∀ r : ReviewResult,
      (generateReviewComments "i" [] "" (ApiSettings.mk "k" "u" "m")
        (PartialSettings.mk none none none)
        (fun _ => NetResult.httpOk "\x7b\"comments\":[]\x7d")).1 = Except.ok r →
      r.comments.length ≤ 10 :=
  fun r hr =>
    comments_at_most_ten.1 "i" [] "" (ApiSettings.mk "k" "u" "m")
      (PartialSettings.mk none none none)
      (fun _ => NetResult.httpOk "\x7b\"comments\":[]\x7d") r hr

/-! ## C7: the variant splitter -/

/-- When no line is a header, the accumulation loop never opens an
accumulator and flushes nothing. -/
theorem variantLoop_no_header (lines : List (List Char)) (out : List (List Char))
    (h : ∀ ln ∈ lines, matchHeader ln = none) : variantLoop lines none out = out := by
  induction lines with
  | nil => rfl
  | cons ln rest ih =>
    have hln : matchHeader ln = none := h ln (by simp)
    have hrest : ∀ l ∈ rest, matchHeader l = none := fun l hl => h l (by simp [hl])
    simpa [variantLoop, hln] using ih hrest

/-- C7: the variant splitter parses case-insensitive "Variant N[:]"
headers, joins continuation lines with a single space, drops entries
empty after trimming before truncating to the requested count, and with
no recognized header returns the whole trimmed text as one variant. -/
theorem splitVariants_spec :
    splitVariants "Variant 1: Hello there.\nVariant 2: Goodbye now." 2 =
      ["Hello there.".data, "Goodbye now.".data] ∧
    (∀ raw : String, jsTrim raw.data ≠ [] →
      (∀ ln ∈ ((splitLines (jsTrim raw.data)).map jsTrim).filter (fun l => !l.isEmpty),
        matchHeader ln = none) →
      splitVariants raw 1 = [jsTrim raw.data]) ∧
    splitVariants "Variant 1: A\ncont line\nVariant 2: B" 3 = ["A cont line".data, "B".data] ∧
    splitVariants "Variant 1:\nVariant 2: ok" 1 = ["ok".data] := by
  refine ⟨rfl, ?_, rfl, rfl⟩
  intro raw hne hnh
  have htext : (jsTrim raw.data).isEmpty = false := by
    cases hjt : jsTrim raw.data with
    | nil => exact absurd hjt hne
    | cons a t => rfl
  simp only [splitVariants, htext, Bool.false_eq_true, if_false]
  rw [variantLoop_no_header _ _ hnh]
  rfl

/-- Witness for C7's fallback clause on a header-free text. -/
theorem splitVariants_spec_witness :
    splitVariants "hello world" 1 = ["hello world".data] :=
  splitVariants_spec.2.1 "hello world" (by decide) (by decide)

/-! ## C1: extractJson error classification -/

/-- C1 (amended): `extractJson` always ends in a parsed value or an
explicit failure, never a partial result.  When every staged attempt
fails, the failure is the explicit MalformedResponse exactly when no
brace span (a first `\x7b` before a last `\x7d`) exists; when a span
exists and both the slice parse and the fence-stripped parse fail, the
failure is the propagated `JSON.parse` error of the final uncaught
attempt (openai.ts line 123), not MalformedResponse. -/
theorem extractJson_classification (text : List Char) :
    (∃ v, extractJson text = Except.ok v) ∨
    (extractJson text = Except.error ExtractErr.malformedResponse ∧ braceSpan text = false) ∨
    (extractJson text = Except.error ExtractErr.parseError ∧ braceSpan text = true) := by
  simp only [extractJson, braceSpan]
  cases hp : parseJson text with
  | some v => exact Or.inl ⟨v, rfl⟩
  | none =>
    cases hf : firstIdx '{' text with
    | none =>
      refine Or.inr (Or.inl ⟨?_, ?_⟩) <;> cases lastIdx '}' text <;> rfl
    | some f =>
      cases hl : lastIdx '}' text with
      | none => exact Or.inr (Or.inl ⟨rfl, rfl⟩)
      | some l =>
        simp only
        by_cases hfl : f < l
        · cases hc : parseJson ((text.drop f).take (l + 1 - f)) with
          | some v => exact Or.inl ⟨v, by rw [if_pos hfl]⟩
          | none =>
            cases hc2 : parseJson (removeFences ((text.drop f).take (l + 1 - f))) with
            | some v => exact Or.inl ⟨v, by rw [if_pos hfl]⟩
            | none => exact Or.inr (Or.inr ⟨by rw [if_pos hfl], by simp [hfl]⟩)
        · exact Or.inr (Or.inl ⟨by rw [if_neg hfl], by simp [hfl]⟩)

/-- C1 counterexample: on "\x7ba\x7d" every staged parse fails, a brace
span exists, and the raised failure is the `JSON.parse` error, not the
explicit MalformedResponse — refuting "the failure raised is
MalformedResponse and never any other". -/
theorem extractJson_not_always_malformed :
    extractJson "\x7ba\x7d".data = Except.error ExtractErr.parseError ∧
    ExtractErr.parseError ≠ ExtractErr.malformedResponse :=
  ⟨rfl, by decide⟩

/-! ## C2: tolerant extraction -/

/-- `JSON.parse` fails on anything starting with a backtick. -/
theorem parseValue_backtick (f : Nat) (t : List Char) : parseValue f ('`' :: t) = none := by
  cases f with
  | zero => rfl
  | succ g => simp [parseValue, skipWs, isJsonWs]

/-- Whole-text parse of a fenced text fails at the leading backtick. -/
theorem parseJson_backtick (t : List Char) : parseJson ('`' :: t) = none := by
  unfold parseJson
  rw [parseValue_backtick]

theorem firstIdx_cons_self (c : Char) (t : List Char) : firstIdx c (c :: t) = some 0 := by
  simp [firstIdx]

/-- `indexOf` skips a prefix free of the searched character. -/
theorem firstIdx_append_not_mem (c : Char) (X R : List Char) (h : c ∉ X) :
    firstIdx c (X ++ R) = (firstIdx c R).map fun i => X.length + i := by
  induction X with
  | nil =>
    simp only [List.nil_append, List.length_nil]
    cases firstIdx c R <;> simp
  | cons x xs ih =>
    have hx : x ≠ c := fun hxc => h (by simp [hxc])
    have ih2 := ih fun hm => h (List.mem_cons_of_mem _ hm)
    cases hr : firstIdx c R <;>
      simp [firstIdx, hx, ih2, hr] <;> omega

/-- C2: `extractJson` tolerates surrounding noise: the spec's concrete
prefix/suffix example extracts successfully, and any JSON object text
(starting with `\x7b`, ending with `\x7d`, parsing as JSON) wrapped in a
```json ... ``` code fence extracts to the same value as the unwrapped
text. -/
theorem extractJson_tolerant :
    extractJson "prefix text \x7b\"comments\":[],\"summary\":\"s\"\x7d suffix".data =
      Except.ok (Json.obj [("comments".data, Json.arr []),
        ("summary".data, Json.str "s".data)]) ∧
    (∀ (s : List Char) (v : Json), parseJson s = some v → s.head? = some '{' →
      s.getLast? = some '}' →
      extractJson ("```json\n".data ++ s ++ "\n```".data) = Except.ok v) := by
  refine ⟨rfl, ?_⟩
  intro s v hp hh hl
  cases s with
  | nil => simp at hh
  | cons a tl =>
  have ha : a = '{' := by simpa using hh
  subst ha
  have htl : tl ≠ [] := by
    intro h0
    subst h0
    simp at hl
  have hrev : ('{' :: tl).reverse.head? = some '}' := by
    rw [List.head?_reverse]
    exact hl
  obtain ⟨rs, hrs⟩ : ∃ rs, ('{' :: tl).reverse = '}' :: rs := by
    cases hc : ('{' :: tl).reverse with
    | nil => rw [hc] at hrev; simp at hrev
    | cons b bs =>
      rw [hc] at hrev
      simp at hrev
      exact ⟨bs, by rw [hrev]⟩
  have hA : parseJson ("```json\n".data ++ ('{' :: tl) ++ "\n```".data) = none := by
    have hshape : "```json\n".data ++ ('{' :: tl) ++ "\n```".data =
        '`' :: ("``json\n".data ++ ('{' :: tl) ++ "\n```".data) := rfl
    rw [hshape, parseJson_backtick]
  have hfi : firstIdx '{' ("```json\n".data ++ ('{' :: tl) ++ "\n```".data) = some 8 := by
    rw [List.append_assoc, firstIdx_append_not_mem '{' _ _ (by decide)]
    rw [List.cons_append, firstIdx_cons_self]
    rfl
  have hla : lastIdx '}' ("```json\n".data ++ ('{' :: tl) ++ "\n```".data) =
      some (tl.length + 8) := by
    have hfr : firstIdx '}' (("```json\n".data ++ ('{' :: tl) ++ "\n```".data).reverse) =
        some 4 := by
      rw [List.reverse_append, List.reverse_append, hrs]
      simp only [List.cons_append]
      rw [firstIdx_append_not_mem '}' _ _ (by decide), firstIdx_cons_self]
      rfl
    have hlen : ("```json\n".data ++ ('{' :: tl) ++ "\n```".data).length = tl.length + 13 := by
      have e1 : ("```json\n".data).length = 8 := rfl
      have e2 : ("\n```".data).length = 4 := rfl
      simp [List.length_append, e1, e2]
    unfold lastIdx
    rw [hfr, hlen]
    have harith2 : tl.length + 13 - 1 - 4 = tl.length + 8 := by omega
    simp [harith2]
  have hcand : (("```json\n".data ++ ('{' :: tl) ++ "\n```".data).drop 8).take
      (tl.length + 8 + 1 - 8) = '{' :: tl := by
    rw [show tl.length + 8 + 1 - 8 = tl.length + 1 from by omega, List.append_assoc]
    have hdrop := List.drop_left ("```json\n".data) ('{' :: tl ++ "\n```".data)
    rw [show ("```json\n".data).length = 8 from rfl] at hdrop
    rw [hdrop]
    have htake := List.take_left ('{' :: tl) ("\n```".data)
    rw [show ('{' :: tl).length = tl.length + 1 from by simp] at htake
    exact htake
  simp only [extractJson]
  rw [hA]
  simp only
  rw [hfi, hla]
  simp only
  have hpos : 0 < tl.length := List.length_pos.mpr htl
  rw [if_pos (by omega : 8 < tl.length + 8)]
  rw [hcand, hp]

/-- Witness for C2's fenced clause at the empty object. -/
theorem extractJson_tolerant_witness :
    extractJson ("```json\n".data ++ "\x7b\x7d".data ++ "\n```".data) =
      Except.ok (Json.obj []) :=
  extractJson_tolerant.2 "\x7b\x7d".data (Json.obj []) rfl rfl rfl

/-! ## C8: prompt containment -/

/-- Every line of a join is an infix of the joined string. -/
theorem infix_of_mem_jsJoin (sep : String) (lines : List String) (l : String)
    (h : l ∈ lines) : l.data <:+: (jsJoin sep lines).data := by
  induction lines with
  | nil => cases h
  | cons a rest ih =>
    cases rest with
    | nil =>
      have ha : l = a := by simpa using h
      subst ha
      exact List.infix_rfl
    | cons b rest2 =>
      rcases List.mem_cons.mp h with h1 | h1
      · subst h1
        refine ⟨[], (sep ++ jsJoin sep (b :: rest2)).data, ?_⟩
        simp [jsJoin, String.data_append]
      · have h2 := ih h1
        have h3 : (jsJoin sep (b :: rest2)).data <:+: (jsJoin sep (a :: b :: rest2)).data := by
          refine ⟨(a ++ sep).data, [], ?_⟩
          simp [jsJoin, String.data_append]
        exact h2.trans h3

set_option maxRecDepth 4000 in
/-- The prompt with empty custom instructions, decomposed into its fixed
head, the focus text, the fixed middle and the input. -/
theorem buildPrompt_data_empty (input : String) (focuses : List String) :
    (buildPrompt input focuses "").data =
      promptHead.data ++ ((focusTextOf focuses).data ++
        (promptMidEmptyCustom.data ++ input.data)) := by
  simp [buildPrompt, promptLines, jsJoin, promptHead, promptMidEmptyCustom,
    String.data_append]

/-- An occurrence of a pattern whose first character does not appear in
`X` lies wholly in `R`. -/
theorem infix_drop_head (P X R : List Char) (c : Char) (hP : P.head? = some c)
    (hc : c ∉ X) (h : P <:+: X ++ R) : P <:+: R := by
  induction X with
  | nil => simpa using h
  | cons x xs ih =>
    rw [List.cons_append] at h
    rcases List.infix_cons_iff.mp h with hpre | hinf
    · exfalso
      cases P with
      | nil => simp at hP
      | cons p ps =>
        have hpc : p = c := by simpa using hP
        subst hpc
        have hx := (List.cons_prefix_cons.mp hpre).1
        exact hc (by simp [hx])
    · exact ih (fun hx => hc (List.mem_cons_of_mem _ hx)) hinf

/-- A prefix of an append is a prefix of the first part or extends it. -/
theorem prefix_append_cases (P X R : List Char) (h : P <+: X ++ R) :
    P <+: X ∨ ∃ q, P = X ++ q ∧ q <+: R := by
  by_cases hl : P.length ≤ X.length
  · exact Or.inl ((List.isPrefix_append_of_length hl).mp h)
  · right
    push_neg at hl
    obtain ⟨t, ht⟩ := h
    have hxp : X.length ≤ P.length := le_of_lt hl
    have h1 : P.take X.length = X := by
      have h2 := congrArg (List.take X.length) ht
      rwa [List.take_append_of_le_length hxp, List.take_left] at h2
    refine ⟨P.drop X.length, ?_, t, ?_⟩
    · conv_lhs => rw [← List.take_append_drop X.length P]
      rw [h1]
    · have h2 := congrArg (List.drop X.length) ht
      rwa [List.drop_append_of_le_length hxp, List.drop_left] at h2

/-- Occurrences in an append: wholly left, wholly right, or spanning the
boundary. -/
theorem infix_append_split (P X R : List Char) (h : P <:+: X ++ R) :
    P <:+: X ∨ P <:+: R ∨
      ∃ p1 p2, P = p1 ++ p2 ∧ p1 ≠ [] ∧ p2 ≠ [] ∧ p1 <:+ X ∧ p2 <+: R := by
  induction X with
  | nil => exact Or.inr (Or.inl (by simpa using h))
  | cons x xs ih =>
    rw [List.cons_append] at h
    rcases List.infix_cons_iff.mp h with hpre | hinf
    · cases P with
      | nil => exact Or.inl List.nil_infix
      | cons p ps =>
        obtain ⟨hpx, hps⟩ := List.cons_prefix_cons.mp hpre
        subst hpx
        rcases prefix_append_cases ps xs R hps with h1 | ⟨q, hq, hqR⟩
        · exact Or.inl (List.cons_prefix_cons.mpr ⟨rfl, h1⟩).isInfix
        · cases q with
          | nil =>
            rw [List.append_nil] at hq
            subst hq
            exact Or.inl List.infix_rfl
          | cons q0 qt =>
            refine Or.inr (Or.inr ⟨p :: xs, q0 :: qt, ?_, by simp, by simp,
              List.suffix_rfl, hqR⟩)
            simp [hq]
    · rcases ih hinf with h1 | h1 | ⟨p1, p2, hsp, hp1, hp2, hs, hpr⟩
      · exact Or.inl (List.infix_cons h1)
      · exact Or.inr (Or.inl h1)
      · exact Or.inr (Or.inr ⟨p1, p2, hsp, hp1, hp2,
          hs.trans (List.suffix_cons x xs), hpr⟩)

/-- With empty custom instructions, the instruction-continuation phrase
can only come from the input text or the focus areas. -/
theorem no_instrPhrase_of_empty_custom (input : String) (focuses : List String)
    (hin : ¬ instrPhrase.data <:+: input.data)
    (hf : ¬ instrPhrase.data <:+: (focusTextOf focuses).data) :
    ¬ instrPhrase.data <:+: (buildPrompt input focuses "").data := by
  intro h
  rw [buildPrompt_data_empty] at h
  have hhead : instrPhrase.data.head? = some 'A' := rfl
  have hA1 : 'A' ∉ promptHead.data := by decide
  have h3 := infix_drop_head _ _ _ _ hhead hA1 h
  rcases infix_append_split _ _ _ h3 with hF | hMI | ⟨p1, p2, hsp, hp1, hp2, _, hpr⟩
  · exact hf hF
  · have hA2 : 'A' ∉ promptMidEmptyCustom.data := by decide
    exact hin (infix_drop_head _ _ _ _ hhead hA2 hMI)
  · have hMhead : promptMidEmptyCustom.data.head? = some '.' := rfl
    have hdot : p2.head? = some '.' := by
      cases p2 with
      | nil => exact absurd rfl hp2
      | cons q qt =>
        obtain ⟨t, ht⟩ := hpr
        have h4 : (q :: (qt ++ t)).head? =
            (promptMidEmptyCustom.data ++ input.data).head? := by
          rw [← List.cons_append, ht]
        rw [List.head?_append, hMhead] at h4
        simpa using h4
    have hmem : '.' ∈ instrPhrase.data := by
      rw [hsp]
      cases p2 with
      | nil => exact absurd rfl hp2
      | cons q qt =>
        have hq : q = '.' := by simpa using hdot
        subst hq
        simp
    exact absurd hmem (by decide)

/-- C8 (amended): for non-empty `customInstructions` the prompt contains
that exact string; for empty `focusAreas` the prompt contains the
literal "general academic quality"; for empty `customInstructions` the
template contributes no instruction-continuation line — the phrase
"Additional reviewer instructions:" occurs in the prompt only if the
input text or the joined focus areas themselves contain it. -/
theorem buildPrompt_containment (input : String) (focuses : List String) (custom : String) :
    (custom ≠ "" → custom.data <:+: (buildPrompt input focuses custom).data) ∧
    (focuses = [] →
      "general academic quality".data <:+: (buildPrompt input focuses custom).data) ∧
    (custom = "" → ¬ instrPhrase.data <:+: input.data →
      ¬ instrPhrase.data <:+: (focusTextOf focuses).data →
      ¬ instrPhrase.data <:+: (buildPrompt input focuses custom).data) := by
  refine ⟨fun h => ?_, fun h => ?_, fun h h1 h2 => ?_⟩
  · have hmem : ("Additional reviewer instructions: " ++ custom) ∈
        promptLines input focuses custom := by
      simp [promptLines, h]
    have h2 := infix_of_mem_jsJoin "\n" _ _ hmem
    have h3 : custom.data <:+: ("Additional reviewer instructions: " ++ custom).data :=
      ⟨"Additional reviewer instructions: ".data, [], by simp [String.data_append]⟩
    exact h3.trans h2
  · have hmem : ("Focus areas: " ++ focusTextOf focuses ++ ".") ∈
        promptLines input focuses custom := by
      simp [promptLines]
    have h2 := infix_of_mem_jsJoin "\n" _ _ hmem
    have h3 : "general academic quality".data <:+:
        ("Focus areas: " ++ focusTextOf focuses ++ ".").data := by
      subst h
      exact ⟨"Focus areas: ".data, ".".data, by simp [String.data_append, focusTextOf, jsJoin]⟩
    exact h3.trans h2
  · subst h
    exact no_instrPhrase_of_empty_custom input focuses h1 h2

/-- The original C8 is refuted when the input text itself carries the
phrase: with empty custom instructions the built prompt still contains
an instruction-continuation line. -/
theorem buildPrompt_instr_counterexample :
    instrPhrase.data <:+: (buildPrompt "Additional reviewer instructions: x" [] "").data := by
  rw [buildPrompt_data_empty]
  refine ⟨promptHead.data ++ ((focusTextOf []).data ++ promptMidEmptyCustom.data),
    " x".data, ?_⟩
  have hx : ("Additional reviewer instructions: x").data =
      instrPhrase.data ++ " x".data := rfl
  rw [hx]
  simp

/-- Witness for C8 at concrete inputs. -/
theorem buildPrompt_containment_witness :
    "be concise".data <:+: (buildPrompt "T" [] "be concise").data ∧
    "general academic quality".data <:+: (buildPrompt "T" [] "be concise").data ∧
    ¬ instrPhrase.data <:+: (buildPrompt "T" ["grammar"] "").data :=
  ⟨(buildPrompt_containment "T" [] "be concise").1 (by decide),
   (buildPrompt_containment "T" [] "be concise").2.1 rfl,
   (buildPrompt_containment "T" ["grammar"] "").2.2 rfl (by decide) (by decide)⟩

/-- Witness for C9: a base URL with trailing slashes is stripped. -/
theorem request_url_shape_witness :
    ∀ req ∈ (callSimpleCompletion "p" (ApiSettings.mk "k" "https://u//" "m")
        (PartialSettings.mk none none none) (fun _ => NetResult.httpOk "")).2,
      req.url = "https://u/chat/completions" :=
  fun req hreq =>
    (request_url_shape "i" [] "" "p" (ApiSettings.mk "k" "https://u//" "m")
      (PartialSettings.mk none none none) (fun _ => NetResult.httpOk "")).2 req hreq

/-! ## C3: parse/stringify round trip — number lemmas -/

/-- A digit character differs from any non-digit character. -/
theorem isDigit_ne (c x : Char) (h : c.isDigit = true) (hx : x.isDigit = false) : c ≠ x := by
  rintro rfl
  rw [h] at hx
  simp at hx

/-- A digit character is not JSON whitespace. -/
theorem isDigit_not_ws (c : Char) (h : c.isDigit = true) : isJsonWs c = false := by
  have h1 : c ≠ ' ' := isDigit_ne c ' ' h (by decide)
  have h2 : c ≠ '\t' := isDigit_ne c '\t' h (by decide)
  have h3 : c ≠ '\n' := isDigit_ne c '\n' h (by decide)
  have h4 : c ≠ '\r' := isDigit_ne c '\r' h (by decide)
  simp [isJsonWs, h1, h2, h3, h4]

theorem digitChar_isDigit : ∀ d < 10, (digitChar d).isDigit = true := by decide

theorem digitVal_digitChar : ∀ d < 10, digitVal (digitChar d) = d := by decide

theorem digitChar_ne_zero : ∀ d < 10, d ≠ 0 → digitChar d ≠ '0' := by decide

/-- The accumulator form of the digit printer. -/
theorem natCharsAux_eq : ∀ (n fuel : Nat) (acc : List Char), n < fuel →
    natCharsAux fuel n acc = natChars n ++ acc := by
  intro n
  induction n using Nat.strong_induction_on with
  | _ n ih =>
    intro fuel acc h
    cases fuel with
    | zero => omega
    | succ f =>
      by_cases h10 : n < 10
      · simp [natCharsAux, natChars, h10]
      · have hdivn : n / 10 < n := Nat.div_lt_self (by omega) (by omega)
        have hstep : ∀ acc2 : List Char,
            natCharsAux (n + 1) n acc2 = natCharsAux n (n / 10) (digitChar (n % 10) :: acc2) := by
          intro acc2
          simp [natCharsAux, h10]
        have hl : natCharsAux (f + 1) n acc = natCharsAux f (n / 10) (digitChar (n % 10) :: acc) := by
          simp [natCharsAux, h10]
        rw [hl, ih (n / 10) hdivn f _ (by omega)]
        show _ = natCharsAux (n + 1) n []  ++ acc
        rw [hstep, ih (n / 10) hdivn n _ hdivn]
        simp

/-- `natChars` under 10 is a single digit. -/
theorem natChars_lt10 (n : Nat) (h : n < 10) : natChars n = [digitChar n] := by
  simp [natChars, natCharsAux, h]

/-- `natChars` at and above 10 peels the last digit. -/
theorem natChars_ge10 (n : Nat) (h : 10 ≤ n) :
    natChars n = natChars (n / 10) ++ [digitChar (n % 10)] := by
  have hdivn : n / 10 < n := Nat.div_lt_self (by omega) (by omega)
  have h10 : ¬ n < 10 := by omega
  have hstep : natCharsAux (n + 1) n [] = natCharsAux n (n / 10) [digitChar (n % 10)] := by
    simp [natCharsAux, h10]
  show natCharsAux (n + 1) n [] = _
  rw [hstep, natCharsAux_eq (n / 10) n _ hdivn]

theorem natChars_all_digits : ∀ n, ∀ c ∈ natChars n, c.isDigit = true := by
  intro n
  induction n using Nat.strong_induction_on with
  | _ n ih =>
    intro c hc
    by_cases h10 : n < 10
    · rw [natChars_lt10 n h10] at hc
      simp at hc
      subst hc
      exact digitChar_isDigit n h10
    · rw [natChars_ge10 n (by omega)] at hc
      rcases List.mem_append.mp hc with h1 | h1
      · exact ih (n / 10) (Nat.div_lt_self (by omega) (by omega)) c h1
      · simp at h1
        subst h1
        exact digitChar_isDigit (n % 10) (Nat.mod_lt n (by omega))

theorem natChars_ne_nil (n : Nat) : natChars n ≠ [] := by
  by_cases h10 : n < 10
  · rw [natChars_lt10 n h10]
    simp
  · rw [natChars_ge10 n (by omega)]
    simp

/-- The printed digits of a nonzero number never start with '0'. -/
theorem natChars_head_not_zero : ∀ n, n ≠ 0 → (natChars n).head? ≠ some '0' := by
  intro n
  induction n using Nat.strong_induction_on with
  | _ n ih =>
    intro hn
    by_cases h10 : n < 10
    · rw [natChars_lt10 n h10]
      have := digitChar_ne_zero n h10 hn
      simp [this]
    · rw [natChars_ge10 n (by omega)]
      have hne := natChars_ne_nil (n / 10)
      have hd : (natChars (n / 10) ++ [digitChar (n % 10)]).head? =
          (natChars (n / 10)).head? := by
        cases hcase : natChars (n / 10) with
        | nil => exact absurd hcase hne
        | cons a t => simp
      rw [hd]
      exact ih (n / 10) (Nat.div_lt_self (by omega) (by omega))
        (by
          have : 1 ≤ n / 10 := Nat.one_le_div_iff (by omega) |>.mpr (by omega)
          omega)

theorem digitsToNat_append_singleton (ds : List Char) (c : Char) :
    digitsToNat (ds ++ [c]) = digitsToNat ds * 10 + digitVal c := by
  unfold digitsToNat
  rw [List.foldl_append]
  rfl

theorem digitsToNat_natChars : ∀ n, digitsToNat (natChars n) = n := by
  intro n
  induction n using Nat.strong_induction_on with
  | _ n ih =>
    by_cases h10 : n < 10
    · rw [natChars_lt10 n h10]
      have := digitVal_digitChar n h10
      simp [digitsToNat, this]
    · rw [natChars_ge10 n (by omega), digitsToNat_append_singleton,
        ih (n / 10) (Nat.div_lt_self (by omega) (by omega)),
        digitVal_digitChar (n % 10) (Nat.mod_lt n (by omega))]
      omega

/-- `takeWhile`/`dropWhile` across an all-satisfying prefix. -/
theorem takeWhile_all_append (p : Char → Bool) (l r : List Char)
    (hl : ∀ c ∈ l, p c = true) (hr : ∀ c, r.head? = some c → p c = false) :
    (l ++ r).takeWhile p = l ∧ (l ++ r).dropWhile p = r := by
  induction l with
  | nil =>
    simp only [List.nil_append]
    cases r with
    | nil => simp
    | cons c t =>
      have := hr c rfl
      simp [List.takeWhile_cons, List.dropWhile_cons, this]
  | cons x xs ih =>
    have hx := hl x (by simp)
    have ih2 := ih fun c hc => hl c (by simp [hc])
    simp [List.takeWhile_cons, List.dropWhile_cons, hx, ih2.1, ih2.2]

/-- `parseNat` inverts the digit printer. -/
theorem parseNat_natChars (n : Nat) (rest : List Char)
    (hrest : ∀ c, rest.head? = some c → c.isDigit = false) :
    parseNat (natChars n ++ rest) = some (n, rest) := by
  obtain ⟨ht, hd⟩ := takeWhile_all_append Char.isDigit (natChars n) rest
    (natChars_all_digits n) hrest
  simp only [parseNat, ht, hd]
  rw [if_neg (by simp [natChars_ne_nil n])]
  by_cases h0 : n = 0
  · subst h0
    rw [natChars_lt10 0 (by omega)]
    simp [digitsToNat, digitVal, digitChar]
  · have hhz := natChars_head_not_zero n h0
    rw [if_neg (by simp [hhz])]
    rw [digitsToNat_natChars]

/-- `parseNum` inverts the number printer. -/
theorem parseNum_intChars (n : Int) (rest : List Char)
    (hrest : ∀ c, rest.head? = some c → c.isDigit = false) :
    parseNum (intChars n ++ rest) = some (Json.num n, rest) := by
  cases n with
  | ofNat m =>
    obtain ⟨c, t, hct⟩ : ∃ c t, natChars m = c :: t := by
      cases h : natChars m with
      | nil => exact absurd h (natChars_ne_nil m)
      | cons c t => exact ⟨c, t, rfl⟩
    have hcd : c.isDigit = true := natChars_all_digits m c (by rw [hct]; simp)
    have hcne : c ≠ '-' := isDigit_ne c '-' hcd (by decide)
    show parseNum (natChars m ++ rest) = _
    rw [hct, List.cons_append]
    simp only [parseNum]
    rw [if_neg hcne, ← List.cons_append, ← hct, parseNat_natChars m rest hrest]
    rfl
  | negSucc m =>
    show parseNum ('-' :: (natChars (m + 1) ++ rest)) = _
    simp only [parseNum, if_true]
    rw [parseNat_natChars (m + 1) rest hrest]
    simp [Int.negSucc_eq]

/-! ## C3 — string escaping round trip -/

theorem hexVal_hexDigitChar : ∀ d < 16, hexVal (hexDigitChar d) = some d := by decide

/-- `parseStr` inverts the string escaper. -/
theorem parseStr_escString : ∀ (s rest : List Char),
    parseStr (escString s ++ '"' :: rest) = some (s, rest) := by
  intro s
  induction s with
  | nil =>
    intro rest
    rw [show escString [] = [] from rfl, List.nil_append, parseStr.eq_def]
    simp
  | cons c cs ih =>
    intro rest
    have hesc : escString (c :: cs) = escCharOut c ++ escString cs := by
      simp [escString]
    show parseStr (escString (c :: cs) ++ '"' :: rest) = some (c :: cs, rest)
    rw [hesc, List.append_assoc]
    by_cases h1 : c = '"'
    · subst h1
      rw [show escCharOut '"' = ['\\', '"'] from rfl]
      simp only [List.cons_append, List.nil_append]
      rw [parseStr.eq_def]
      simp [escChar, ih rest]
    · by_cases h2 : c = '\\'
      · subst h2
        rw [show escCharOut '\\' = ['\\', '\\'] from rfl]
        simp only [List.cons_append, List.nil_append]
        rw [parseStr.eq_def]
        simp [escChar, ih rest]
      · by_cases h3 : c = '\n'
        · subst h3
          rw [show escCharOut '\n' = ['\\', 'n'] from rfl]
          simp only [List.cons_append, List.nil_append]
          rw [parseStr.eq_def]
          simp [escChar, ih rest]
        · by_cases h4 : c = '\r'
          · subst h4
            rw [show escCharOut '\r' = ['\\', 'r'] from rfl]
            simp only [List.cons_append, List.nil_append]
            rw [parseStr.eq_def]
            simp [escChar, ih rest]
          · by_cases h5 : c = '\t'
            · subst h5
              rw [show escCharOut '\t' = ['\\', 't'] from rfl]
              simp only [List.cons_append, List.nil_append]
              rw [parseStr.eq_def]
              simp [escChar, ih rest]
            · by_cases h6 : c.toNat = 8
              · have hc : c = Char.ofNat 8 := by
                  have h7 := Char.ofNat_toNat c
                  rw [h6] at h7
                  exact h7.symm
                subst hc
                rw [show escCharOut (Char.ofNat 8) = ['\\', 'b'] from rfl]
                simp only [List.cons_append, List.nil_append]
                rw [parseStr.eq_def]
                simp [escChar, ih rest]
              · by_cases h8 : c.toNat = 12
                · have hc : c = Char.ofNat 12 := by
                    have h7 := Char.ofNat_toNat c
                    rw [h8] at h7
                    exact h7.symm
                  subst hc
                  rw [show escCharOut (Char.ofNat 12) = ['\\', 'f'] from rfl]
                  simp only [List.cons_append, List.nil_append]
                  rw [parseStr.eq_def]
                  simp [escChar, ih rest]
                · by_cases h9 : c.toNat < 32
                  · have hout : escCharOut c = ['\\', 'u', '0', '0',
                        hexDigitChar (c.toNat / 16), hexDigitChar (c.toNat % 16)] := by
                      simp [escCharOut, h1, h2, h3, h4, h5, h6, h8, h9]
                    have hhi : hexVal (hexDigitChar (c.toNat / 16)) = some (c.toNat / 16) :=
                      hexVal_hexDigitChar _ (by omega)
                    have hlo : hexVal (hexDigitChar (c.toNat % 16)) = some (c.toNat % 16) :=
                      hexVal_hexDigitChar _ (by omega)
                    have hcode : ((0 * 16 + 0) * 16 + c.toNat / 16) * 16 + c.toNat % 16 =
                        c.toNat := by omega
                    have hcode2 : c.toNat / 16 * 16 + c.toNat % 16 = c.toNat := by omega
                    have hv0 : hexVal '0' = some 0 := rfl
                    rw [hout]
                    simp only [List.cons_append, List.nil_append]
                    rw [parseStr.eq_def]
                    simp [hv0, hhi, hlo, hcode, hcode2, Char.ofNat_toNat, ih rest]
                  · have hout : escCharOut c = [c] := by
                      simp [escCharOut, h1, h2, h3, h4, h5, h6, h8, h9]
                    rw [hout]
                    simp only [List.cons_append, List.nil_append]
                    rw [parseStr.eq_def]
                    simp [h1, h2, h9, ih rest]

/-! ## C3 — structural induction and serialized-form shapes -/

/-- Structural induction over the nested `Json` type. -/
theorem Json.induction (P : Json → Prop) (hnull : P Json.null)
    (hbool : ∀ b, P (Json.bool b)) (hnum : ∀ n, P (Json.num n))
    (hstr : ∀ s, P (Json.str s))
    (harr : ∀ xs, (∀ x ∈ xs, P x) → P (Json.arr xs))
    (hobj : ∀ kvs, (∀ kv ∈ kvs, P kv.2) → P (Json.obj kvs)) : ∀ v, P v := by
  have key : ∀ (n : Nat) (v : Json), sizeOf v ≤ n → P v := by
    intro n
    induction n with
    | zero =>
      intro v hv
      exfalso
      cases v <;> simp at hv
    | succ n ih =>
      intro v _hv
      cases v with
      | null => exact hnull
      | bool b => exact hbool b
      | num m => exact hnum m
      | str s => exact hstr s
      | arr xs =>
        refine harr xs fun x hx => ih x ?_
        have h1 := List.sizeOf_lt_of_mem hx
        have h2 : sizeOf (Json.arr xs) = 1 + sizeOf xs := by simp
        omega
      | obj kvs =>
        refine hobj kvs fun kv hkv => ih kv.2 ?_
        have h1 := List.sizeOf_lt_of_mem hkv
        have h2 : sizeOf (Json.obj kvs) = 1 + sizeOf kvs := by simp
        have h3 : sizeOf kv.2 < sizeOf kv := by
          cases kv with
          | mk k v2 => simp
        omega
  exact fun v => key (sizeOf v) v le_rfl

/-- Non-whitespace, non-terminator head character of a serialized value. -/
theorem strJson_head (v : Json) : ∃ c t, strJson v = c :: t ∧ isJsonWs c = false ∧
    c ≠ ']' ∧ c ≠ '}' ∧ c ≠ ',' := by
  cases v with
  | null => exact ⟨'n', ['u', 'l', 'l'], rfl, by decide, by decide, by decide, by decide⟩
  | bool b =>
    cases b with
    | true => exact ⟨'t', ['r', 'u', 'e'], rfl, by decide, by decide, by decide, by decide⟩
    | false => exact ⟨'f', ['a', 'l', 's', 'e'], rfl, by decide, by decide, by decide, by decide⟩
  | num n =>
    cases n with
    | ofNat m =>
      obtain ⟨c, t, hct⟩ : ∃ c t, natChars m = c :: t := by
        cases h : natChars m with
        | nil => exact absurd h (natChars_ne_nil m)
        | cons c t => exact ⟨c, t, rfl⟩
      have hcd : c.isDigit = true := natChars_all_digits m c (by rw [hct]; simp)
      exact ⟨c, t, by rw [show strJson (Json.num (Int.ofNat m)) = natChars m from rfl, hct],
        isDigit_not_ws c hcd, isDigit_ne c ']' hcd (by decide),
        isDigit_ne c '}' hcd (by decide), isDigit_ne c ',' hcd (by decide)⟩
    | negSucc m =>
      exact ⟨'-', natChars (m + 1),
        by rw [show strJson (Json.num (Int.negSucc m)) = '-' :: natChars (m + 1) from rfl],
        by decide, by decide, by decide, by decide⟩
  | str s =>
    exact ⟨'"', escString s ++ ['"'], rfl, by decide, by decide, by decide, by decide⟩
  | arr xs =>
    exact ⟨'[', strElems xs ++ [']'], rfl, by decide, by decide, by decide, by decide⟩
  | obj kvs =>
    exact ⟨'{', strMembers kvs ++ ['}'], rfl, by decide, by decide, by decide, by decide⟩

/-- The serialized elements of a non-empty array start like the first
element. -/
theorem strElems_cons_head (x : Json) (xs : List Json) :
    ∃ c t, strElems (x :: xs) = c :: t ∧ isJsonWs c = false ∧ c ≠ ']' ∧ c ≠ '}' ∧ c ≠ ',' := by
  obtain ⟨c, t, hct, h1, h2, h3, h4⟩ := strJson_head x
  cases xs with
  | nil => exact ⟨c, t, by rw [show strElems [x] = strJson x from rfl, hct], h1, h2, h3, h4⟩
  | cons y ys =>
    refine ⟨c, t ++ ',' :: strElems (y :: ys), ?_, h1, h2, h3, h4⟩
    rw [show strElems (x :: y :: ys) = strJson x ++ ',' :: strElems (y :: ys) from rfl, hct,
      List.cons_append]

/-- Serialized members of a non-empty object start with a quote. -/
theorem strMembers_cons_shape (kv : List Char × Json) (kvs : List (List Char × Json)) :
    ∃ t, strMembers (kv :: kvs) = '"' :: t := by
  cases kv with
  | mk k v =>
    cases kvs with
    | nil =>
      exact ⟨escString k ++ ['"'] ++ ':' :: strJson v,
        by rw [show strMembers [(k, v)] = ('"' :: escString k ++ ['"']) ++ ':' :: strJson v
          from rfl]; simp⟩
    | cons kv2 kvs2 =>
      exact ⟨escString k ++ ['"'] ++ ':' :: strJson v ++ ',' :: strMembers (kv2 :: kvs2),
        by rw [show strMembers ((k, v) :: kv2 :: kvs2) =
            (('"' :: escString k ++ ['"']) ++ ':' :: strJson v) ++ ',' :: strMembers (kv2 :: kvs2)
          from rfl]; simp⟩

/-- `skipWs` does not move over a non-whitespace head. -/
theorem skipWs_cons (a : Char) (l : List Char) (h : isJsonWs a = false) :
    skipWs (a :: l) = a :: l := by
  simp [skipWs, List.dropWhile_cons, h]

theorem headNotDigit_cons (x : Char) (l : List Char) (hx : x.isDigit = false) :
    ∀ c, (x :: l).head? = some c → c.isDigit = false := by
  intro c hc
  simp at hc
  rw [← hc]
  exact hx

/-- `parseElems` inverts the element serializer, given the round trip
for each element. -/
theorem parseElems_strElems : ∀ (xs : List Json), xs ≠ [] →
    (∀ x ∈ xs, ∀ (f : Nat) (rest : List Char), jfuel x ≤ f →
      (∀ c, rest.head? = some c → c.isDigit = false) →
      parseValue f (strJson x ++ rest) = some (x, rest)) →
    ∀ (f : Nat) (rest : List Char), efuel xs ≤ f →
      parseElems f (strElems xs ++ ']' :: rest) = some (xs, rest) := by
  intro xs
  induction xs with
  | nil => intro h; exact absurd rfl h
  | cons x xs ih =>
    intro _ hIH f rest hf
    have hfx : 1 + jfuel x + efuel xs ≤ f := by
      have he : efuel (x :: xs) = 1 + jfuel x + efuel xs := by simp [efuel]
      omega
    obtain ⟨g, rfl⟩ : ∃ g, f = g + 1 := by
      cases f with
      | zero => omega
      | succ g => exact ⟨g, rfl⟩
    have hg1 : jfuel x ≤ g := by omega
    have hg2 : efuel xs ≤ g := by omega
    cases xs with
    | nil =>
      rw [show strElems [x] = strJson x from rfl, parseElems.eq_def]
      simp only
      rw [hIH x (by simp) g (']' :: rest) hg1 (headNotDigit_cons ']' rest (by decide))]
      rfl
    | cons y ys =>
      rw [show strElems (x :: y :: ys) = strJson x ++ ',' :: strElems (y :: ys) from rfl,
        List.append_assoc, List.cons_append, parseElems.eq_def]
      simp only
      rw [hIH x (by simp) g _ hg1
        (headNotDigit_cons ',' (strElems (y :: ys) ++ ']' :: rest) (by decide))]
      show (parseElems g (strElems (y :: ys) ++ ']' :: rest)).map (fun p => (x :: p.1, p.2)) =
        some (x :: y :: ys, rest)
      rw [ih (by simp) (fun z hz => hIH z (by simp [hz])) g rest hg2]
      rfl

/-- `parseMembers` inverts the member serializer, given the round trip
for each member value. -/
theorem parseMembers_strMembers : ∀ (kvs : List (List Char × Json)), kvs ≠ [] →
    (∀ kv ∈ kvs, ∀ (f : Nat) (rest : List Char), jfuel kv.2 ≤ f →
      (∀ c, rest.head? = some c → c.isDigit = false) →
      parseValue f (strJson kv.2 ++ rest) = some (kv.2, rest)) →
    ∀ (f : Nat) (rest : List Char), mfuel kvs ≤ f →
      parseMembers f (strMembers kvs ++ '}' :: rest) = some (kvs, rest) := by
  intro kvs
  induction kvs with
  | nil => intro h; exact absurd rfl h
  | cons kv kvs ih =>
    obtain ⟨k, v⟩ := kv
    intro _ hIH f rest hf
    have hfx : 1 + jfuel v + mfuel kvs ≤ f := by
      have hm : mfuel ((k, v) :: kvs) = 1 + jfuel v + mfuel kvs := by simp [mfuel]
      omega
    obtain ⟨g, rfl⟩ : ∃ g, f = g + 1 := by
      cases f with
      | zero => omega
      | succ g => exact ⟨g, rfl⟩
    have hg1 : jfuel v ≤ g := by omega
    have hg2 : mfuel kvs ≤ g := by omega
    cases kvs with
    | nil =>
      have hshape : strMembers [(k, v)] ++ '}' :: rest =
          '"' :: (escString k ++ '"' :: (':' :: (strJson v ++ '}' :: rest))) := by
        rw [show strMembers [(k, v)] = ('"' :: escString k ++ ['"']) ++ ':' :: strJson v
          from rfl]
        simp
      have h1 := parseStr_escString k (':' :: (strJson v ++ '}' :: rest))
      have h2 : parseValue g (strJson v ++ '}' :: rest) = some (v, '}' :: rest) :=
        hIH (k, v) (by simp) g ('}' :: rest) hg1 (headNotDigit_cons '}' rest (by decide))
      rw [parseMembers.eq_def]
      simp only
      rw [hshape, skipWs_cons '"' _ (by decide)]
      simp only
      rw [h1]
      show (match skipWs (':' :: (strJson v ++ '}' :: rest)) with
        | ':' :: rest2 =>
          (parseValue g rest2).bind fun d =>
            match skipWs d.2 with
            | ',' :: rest4 => (parseMembers g rest4).map fun p => ((k, d.1) :: p.1, p.2)
            | '}' :: rest4 => some ([(k, d.1)], rest4)
            | _ => none
        | _ => none) = some ([(k, v)], rest)
      rw [skipWs_cons ':' _ (by decide)]
      simp only
      rw [h2]
      rfl
    | cons kv2 kvs2 =>
      have hshape : strMembers ((k, v) :: kv2 :: kvs2) ++ '}' :: rest =
          '"' :: (escString k ++ '"' :: (':' :: (strJson v ++
            ',' :: (strMembers (kv2 :: kvs2) ++ '}' :: rest)))) := by
        rw [show strMembers ((k, v) :: kv2 :: kvs2) =
            (('"' :: escString k ++ ['"']) ++ ':' :: strJson v) ++
              ',' :: strMembers (kv2 :: kvs2) from rfl]
        simp
      have h1 := parseStr_escString k
        (':' :: (strJson v ++ ',' :: (strMembers (kv2 :: kvs2) ++ '}' :: rest)))
      have h2 : parseValue g (strJson v ++ ',' :: (strMembers (kv2 :: kvs2) ++ '}' :: rest)) =
          some (v, ',' :: (strMembers (kv2 :: kvs2) ++ '}' :: rest)) :=
        hIH (k, v) (by simp) g _ hg1
          (headNotDigit_cons ',' (strMembers (kv2 :: kvs2) ++ '}' :: rest) (by decide))
      rw [parseMembers.eq_def]
      simp only
      rw [hshape, skipWs_cons '"' _ (by decide)]
      simp only
      rw [h1]
      show (match skipWs (':' :: (strJson v ++
          ',' :: (strMembers (kv2 :: kvs2) ++ '}' :: rest))) with
        | ':' :: rest2 =>
          (parseValue g rest2).bind fun d =>
            match skipWs d.2 with
            | ',' :: rest4 => (parseMembers g rest4).map fun p => ((k, d.1) :: p.1, p.2)
            | '}' :: rest4 => some ([(k, d.1)], rest4)
            | _ => none
        | _ => none) = some ((k, v) :: kv2 :: kvs2, rest)
      rw [skipWs_cons ':' _ (by decide)]
      simp only
      rw [h2]
      show (parseMembers g (strMembers (kv2 :: kvs2) ++ '}' :: rest)).map
          (fun p => ((k, v) :: p.1, p.2)) = some ((k, v) :: kv2 :: kvs2, rest)
      rw [ih (by simp) (fun z hz => hIH z (by simp [hz])) g rest hg2]
      rfl

/-- `parseValue` inverts `strJson` given enough fuel, leaving exactly
the trailing input (which must not begin with a digit). -/
theorem parseValue_strJson : ∀ (v : Json) (f : Nat) (rest : List Char), jfuel v ≤ f →
    (∀ c, rest.head? = some c → c.isDigit = false) →
    parseValue f (strJson v ++ rest) = some (v, rest) := by
  intro v
  induction v using Json.induction with
  | hnull =>
    intro f rest hf hrest
    obtain ⟨g, rfl⟩ : ∃ g, f = g + 1 := by
      cases f with
      | zero => simp [jfuel] at hf
      | succ g => exact ⟨g, rfl⟩
    rw [show strJson Json.null ++ rest = 'n' :: 'u' :: 'l' :: 'l' :: rest from rfl,
      parseValue.eq_def]
    simp only
    rfl
  | hbool b =>
    intro f rest hf hrest
    obtain ⟨g, rfl⟩ : ∃ g, f = g + 1 := by
      cases f with
      | zero => simp [jfuel] at hf
      | succ g => exact ⟨g, rfl⟩
    cases b with
    | true =>
      rw [show strJson (Json.bool true) ++ rest = 't' :: 'r' :: 'u' :: 'e' :: rest from rfl,
        parseValue.eq_def]
      simp only
      rfl
    | false =>
      rw [show strJson (Json.bool false) ++ rest =
          'f' :: 'a' :: 'l' :: 's' :: 'e' :: rest from rfl, parseValue.eq_def]
      simp only
      rfl
  | hnum n =>
    intro f rest hf hrest
    obtain ⟨g, rfl⟩ : ∃ g, f = g + 1 := by
      cases f with
      | zero => simp [jfuel] at hf
      | succ g => exact ⟨g, rfl⟩
    cases n with
    | ofNat m =>
      obtain ⟨c, t, hct⟩ : ∃ c t, natChars m = c :: t := by
        cases h : natChars m with
        | nil => exact absurd h (natChars_ne_nil m)
        | cons c t => exact ⟨c, t, rfl⟩
      have hcd : c.isDigit = true := natChars_all_digits m c (by rw [hct]; simp)
      have hn : c ≠ 'n' := isDigit_ne c 'n' hcd (by decide)
      have ht : c ≠ 't' := isDigit_ne c 't' hcd (by decide)
      have hf2 : c ≠ 'f' := isDigit_ne c 'f' hcd (by decide)
      have hq : c ≠ '"' := isDigit_ne c '"' hcd (by decide)
      have hlb : c ≠ '[' := isDigit_ne c '[' hcd (by decide)
      have hob : c ≠ '{' := isDigit_ne c '{' hcd (by decide)
      rw [show strJson (Json.num (Int.ofNat m)) = natChars m from rfl, hct,
        List.cons_append, parseValue.eq_def]
      simp only
      rw [skipWs_cons c _ (isDigit_not_ws c hcd)]
      simp only [hn, ht, hf2, hq, hlb, hob, if_neg, if_false, hcd, Bool.or_true, if_true,
        reduceIte]
      rw [show (c :: (t ++ rest) : List Char) = natChars m ++ rest from by rw [hct]; simp]
      exact parseNum_intChars (Int.ofNat m) rest hrest
    | negSucc m =>
      rw [show strJson (Json.num (Int.negSucc m)) ++ rest =
          '-' :: (natChars (m + 1) ++ rest) from by simp [strJson, intChars],
        parseValue.eq_def]
      simp only
      rw [skipWs_cons '-' _ (by decide)]
      simp only [reduceIte]
      show parseNum ('-' :: (natChars (m + 1) ++ rest)) = some (Json.num (Int.negSucc m), rest)
      exact parseNum_intChars (Int.negSucc m) rest hrest
  | hstr s =>
    intro f rest hf hrest
    obtain ⟨g, rfl⟩ : ∃ g, f = g + 1 := by
      cases f with
      | zero => simp [jfuel] at hf
      | succ g => exact ⟨g, rfl⟩
    rw [show strJson (Json.str s) ++ rest = '"' :: (escString s ++ '"' :: rest) from by
        rw [show strJson (Json.str s) = '"' :: escString s ++ ['"'] from rfl]; simp,
      parseValue.eq_def]
    simp only
    rw [skipWs_cons '"' _ (by decide)]
    show (parseStr (escString s ++ '"' :: rest)).map (fun p => (Json.str p.1, p.2)) =
      some (Json.str s, rest)
    rw [parseStr_escString s rest]
    rfl
  | harr xs hmem =>
    intro f rest hf hrest
    obtain ⟨g, rfl⟩ : ∃ g, f = g + 1 := by
      cases f with
      | zero => simp [jfuel] at hf
      | succ g => exact ⟨g, rfl⟩
    cases xs with
    | nil =>
      rw [show strJson (Json.arr []) ++ rest = '[' :: ']' :: rest from rfl, parseValue.eq_def]
      simp only
      rfl
    | cons x xs =>
      obtain ⟨c, t, hct, hws, hrb, _, _⟩ := strElems_cons_head x xs
      have hbound : efuel (x :: xs) ≤ g := by
        simp [jfuel] at hf
        omega
      rw [show strJson (Json.arr (x :: xs)) ++ rest =
          '[' :: (strElems (x :: xs) ++ ']' :: rest) from by
        rw [show strJson (Json.arr (x :: xs)) = '[' :: (strElems (x :: xs) ++ [']']) from rfl]
        simp, parseValue.eq_def]
      simp only
      rw [skipWs_cons '[' _ (by decide)]
      show (match skipWs (strElems (x :: xs) ++ ']' :: rest) with
        | ']' :: rest2 => some (Json.arr [], rest2)
        | cs2 => (parseElems g cs2).map fun p => (Json.arr p.1, p.2)) =
        some (Json.arr (x :: xs), rest)
      rw [show strElems (x :: xs) ++ ']' :: rest = c :: (t ++ ']' :: rest) from by
        rw [hct]; simp, skipWs_cons c _ hws]
      split
      · next heq =>
        exfalso
        have : c = ']' := by
          have h0 := congrArg List.head? heq
          simpa using h0
        exact hrb this
      · next =>
        rw [show (c :: (t ++ ']' :: rest) : List Char) = strElems (x :: xs) ++ ']' :: rest
          from by rw [hct]; simp]
        rw [parseElems_strElems (x :: xs) (by simp) hmem g rest hbound]
        rfl
  | hobj kvs hmem =>
    intro f rest hf hrest
    obtain ⟨g, rfl⟩ : ∃ g, f = g + 1 := by
      cases f with
      | zero => simp [jfuel] at hf
      | succ g => exact ⟨g, rfl⟩
    cases kvs with
    | nil =>
      rw [show strJson (Json.obj []) ++ rest = '{' :: '}' :: rest from rfl, parseValue.eq_def]
      simp only
      rfl
    | cons kv kvs =>
      obtain ⟨t, hct⟩ := strMembers_cons_shape kv kvs
      have hbound : mfuel (kv :: kvs) ≤ g := by
        simp [jfuel] at hf
        omega
      rw [show strJson (Json.obj (kv :: kvs)) ++ rest =
          '{' :: (strMembers (kv :: kvs) ++ '}' :: rest) from by
        rw [show strJson (Json.obj (kv :: kvs)) =
          '{' :: (strMembers (kv :: kvs) ++ ['}']) from rfl]
        simp, parseValue.eq_def]
      simp only
      rw [skipWs_cons '{' _ (by decide)]
      show (match skipWs (strMembers (kv :: kvs) ++ '}' :: rest) with
        | '}' :: rest2 => some (Json.obj [], rest2)
        | cs2 => (parseMembers g cs2).map fun p => (Json.obj p.1, p.2)) =
        some (Json.obj (kv :: kvs), rest)
      rw [show strMembers (kv :: kvs) ++ '}' :: rest = '"' :: (t ++ '}' :: rest) from by
        rw [hct]; simp, skipWs_cons '"' _ (by decide)]
      split
      · next heq =>
        exfalso
        have h0 := congrArg List.head? heq
        simp at h0
      · next =>
        rw [show ('"' :: (t ++ '}' :: rest) : List Char) = strMembers (kv :: kvs) ++ '}' :: rest
          from by rw [hct]; simp]
        rw [parseMembers_strMembers (kv :: kvs) (by simp) hmem g rest hbound]
        rfl

/-- Element fuel is within a constant of twice the serialized length. -/
theorem efuel_le (xs : List Json) (h : ∀ x ∈ xs, jfuel x ≤ 2 * (strJson x).length) :
    efuel xs ≤ 2 * (strElems xs).length + 3 := by
  induction xs with
  | nil => simp [efuel]
  | cons x xs ih =>
    have hx := h x (by simp)
    cases xs with
    | nil =>
      rw [show strElems [x] = strJson x from rfl]
      simp [efuel]
      omega
    | cons y ys =>
      have hys := ih fun z hz => h z (by simp [hz])
      rw [show strElems (x :: y :: ys) = strJson x ++ ',' :: strElems (y :: ys) from rfl]
      simp only [efuel, List.length_append, List.length_cons] at *
      omega

/-- Member fuel is within a constant of twice the serialized length. -/
theorem mfuel_le (kvs : List (List Char × Json))
    (h : ∀ kv ∈ kvs, jfuel kv.2 ≤ 2 * (strJson kv.2).length) :
    mfuel kvs ≤ 2 * (strMembers kvs).length + 3 := by
  induction kvs with
  | nil => simp [mfuel]
  | cons kv kvs ih =>
    obtain ⟨k, v⟩ := kv
    have hx := h (k, v) (by simp)
    cases kvs with
    | nil =>
      rw [show strMembers [(k, v)] = ('"' :: escString k ++ ['"']) ++ ':' :: strJson v
        from rfl]
      simp only [mfuel, List.length_append, List.length_cons] at *
      omega
    | cons kv2 kvs2 =>
      have hys := ih fun z hz => h z (by simp [hz])
      rw [show strMembers ((k, v) :: kv2 :: kvs2) =
          (('"' :: escString k ++ ['"']) ++ ':' :: strJson v) ++ ',' :: strMembers (kv2 :: kvs2)
        from rfl]
      simp only [mfuel, List.length_append, List.length_cons] at *
      omega

/-- The fuel needed for a serialized value is within the fuel
`parseJson` supplies. -/
theorem jfuel_le (v : Json) : jfuel v ≤ 2 * (strJson v).length := by
  induction v using Json.induction with
  | hnull => simp [jfuel, strJson]
  | hbool b => cases b <;> simp [jfuel, strJson]
  | hnum n =>
    have hlen : 1 ≤ (strJson (Json.num n)).length := by
      cases n with
      | ofNat m =>
        have h1 := natChars_ne_nil m
        rw [show strJson (Json.num (Int.ofNat m)) = natChars m from rfl]
        cases h2 : natChars m with
        | nil => exact absurd h2 h1
        | cons c t => simp
      | negSucc m =>
        rw [show strJson (Json.num (Int.negSucc m)) = '-' :: natChars (m + 1) from rfl]
        simp
    simp only [jfuel]
    omega
  | hstr s =>
    rw [show strJson (Json.str s) = '"' :: escString s ++ ['"'] from rfl]
    simp [jfuel]
    omega
  | harr xs hmem =>
    have h1 := efuel_le xs hmem
    rw [show strJson (Json.arr xs) = '[' :: (strElems xs ++ [']']) from rfl]
    simp only [jfuel, List.length_cons, List.length_append]
    simp at h1 ⊢
    omega
  | hobj kvs hmem =>
    have h1 := mfuel_le kvs hmem
    rw [show strJson (Json.obj kvs) = '{' :: (strMembers kvs ++ ['}']) from rfl]
    simp only [jfuel, List.length_cons, List.length_append]
    simp at h1 ⊢
    omega

/-- `parseJson` inverts `strJson`. -/
theorem parseJson_strJson (v : Json) : parseJson (strJson v) = some v := by
  unfold parseJson
  have h1 : jfuel v ≤ 2 * (strJson v).length + 2 := le_trans (jfuel_le v) (by omega)
  have h2 := parseValue_strJson v (2 * (strJson v).length + 2) [] h1 (by intro c hc; simp at hc)
  rw [List.append_nil] at h2
  rw [h2]
  rfl

/-- C3: round trip — `extractJson` applied to the `JSON.stringify`
serialization of any JSON value returns exactly that value
(numbers modelled as integers; IEEE-754 doubles outside the model). -/
theorem extractJson_roundtrip (v : Json) : extractJson (strJson v) = Except.ok v := by
  simp only [extractJson]
  rw [parseJson_strJson]

end RM
